import Mathlib

/-!
# jiranch: branch names from issue summaries

A shallow embedding of `main.go` of `suzaku/jiranch` and a verification of the
branch-name derivation and of the command dispatch.

Modelling conventions.

* A Go `string` is a `List Char` (abbreviated `Str`): the text it holds, one `Char`
  per Unicode code point.  The summary comes out of a JSON decoder; the strings of
  the command line and of the configuration are taken to be valid UTF-8 text too.
* A Go `[]byte` is a `List Nat` of values below 256.  The conversions `[]byte(s)` and
  `string(b)` that the source performs around `regexp.ReplaceAll` are explicit
  (`toBytes`, `ofBytes`), so the regular expression runs over UTF-8 bytes as in Go.
* The Go standard-library functions that the program calls (`strings.SplitN`,
  `strings.Join`, `strings.Index`, `strings.TrimSpace`, `utf8.DecodeRune`,
  `regexp.ReplaceAll` for the pattern `\W`) are modelled after their documented
  behaviour, loop for loop; bit operations on bytes are written with `/`, `%`, `*`.
* Everything outside the process (arguments, standard input, the file system, the
  YAML codec, the tracker) is a field of `World`; a run yields the trace of observable
  events and the way the process ended.
-/

namespace Jiranch

/-- Go `string`, as the list of its Unicode code points. -/
abbrev Str := List Char

/-! ## UTF-8 -/

/-- The value `utf8.RuneError` (U+FFFD). -/
def RuneError : Nat := 0xFFFD

/-- UTF-8 encoding of one code point (what `[]byte(s)` exposes for each character). -/
def encodeRune (c : Char) : List Nat :=
  let n := c.toNat
  if n < 0x80 then [n]
  else if n < 0x800 then [0xC0 + n / 64, 0x80 + n % 64]
  else if n < 0x10000 then [0xE0 + n / 4096, 0x80 + n / 64 % 64, 0x80 + n % 64]
  else [0xF0 + n / 262144, 0x80 + n / 4096 % 64, 0x80 + n / 64 % 64, 0x80 + n % 64]

/-- The conversion `[]byte(s)`. -/
def toBytes : Str → List Nat
  | [] => []
  | c :: s => encodeRune c ++ toBytes s

/-- The table `first` of package `utf8` for a non-ASCII lead byte: the length of the
sequence it starts and the accepted range of the second byte; `none` for the bytes
that start no sequence (`0x80..0xC1`, `0xF5..0xFF`). -/
def first (p0 : Nat) : Option (Nat × Nat × Nat) :=
  if p0 < 0xC2 then none
  else if p0 < 0xE0 then some (2, 0x80, 0xBF)
  else if p0 = 0xE0 then some (3, 0xA0, 0xBF)
  else if p0 = 0xED then some (3, 0x80, 0x9F)
  else if p0 < 0xF0 then some (3, 0x80, 0xBF)
  else if p0 = 0xF0 then some (4, 0x90, 0xBF)
  else if p0 < 0xF4 then some (4, 0x80, 0xBF)
  else if p0 = 0xF4 then some (4, 0x80, 0x8F)
  else none

/-- `utf8.DecodeRune`: the first code point of `p` and its width in bytes; an invalid
or truncated sequence decodes to `(RuneError, 1)`, the empty input to `(RuneError, 0)`. -/
def DecodeRune (p : List Nat) : Nat × Nat :=
  match p with
  | [] => (RuneError, 0)
  | p0 :: rest =>
    if p0 < 0x80 then (p0, 1)
    else
      match first p0 with
      | none => (RuneError, 1)
      | some (sz, lo, hi) =>
        if p.length < sz then (RuneError, 1)
        else
          match rest with
          | [] => (RuneError, 1)
          | b1 :: rest1 =>
            if b1 < lo ∨ hi < b1 then (RuneError, 1)
            else if sz ≤ 2 then (p0 % 32 * 64 + b1 % 64, 2)
            else
              match rest1 with
              | [] => (RuneError, 1)
              | b2 :: rest2 =>
                if b2 < 0x80 ∨ 0xBF < b2 then (RuneError, 1)
                else if sz ≤ 3 then (p0 % 16 * 4096 + b1 % 64 * 64 + b2 % 64, 3)
                else
                  match rest2 with
                  | [] => (RuneError, 1)
                  | b3 :: _ =>
                    if b3 < 0x80 ∨ 0xBF < b3 then (RuneError, 1)
                    else (p0 % 8 * 262144 + b1 % 64 * 4096 + b2 % 64 * 64 + b3 % 64, 4)

/-- Reading of a byte slice as text, rune by rune (`fuel` bounds the number of runes). -/
def ofBytesLoop : Nat → List Nat → Str
  | 0, _ => []
  | fuel + 1, b =>
    match b with
    | [] => []
    | _ :: _ =>
      let rs := DecodeRune b
      Char.ofNat rs.1 :: ofBytesLoop fuel (b.drop rs.2)

/-- The conversion `string(b)`, read as text. -/
def ofBytes (b : List Nat) : Str := ofBytesLoop b.length b

/-! ## Package `strings` -/

/-- `strings.Index`: position of the first occurrence of `substr` in `s`, `none` for
Go's `-1`. -/
def Index : Str → Str → Option Nat
  | [], substr => if substr = [] then some 0 else none
  | c :: s, substr =>
    if substr.isPrefixOf (c :: s) then some 0
    else (Index s substr).map (· + 1)

/-- The loop of `strings.genSplit` (with `sepSave = 0`): at most `n` cuts at successive
occurrences of `sep`, then the remainder as last element. -/
def genSplitLoop (sep : Str) : Nat → Str → List Str
  | 0, s => [s]
  | n + 1, s =>
    match Index s sep with
    | none => [s]
    | some m => s.take m :: genSplitLoop sep n (s.drop (m + sep.length))

/-- `strings.SplitN(s, sep, n)` for `n ≥ 0` and a non-empty `sep`: at most `n`
substrings, the last being the unsplit remainder; `n = 0` gives the empty slice. The
program calls it with `sep = " "` and `n = 6` only. As in `genSplit`, `n` is first
capped at `len(s) + 1`, `len` counting bytes. -/
def SplitN (s sep : Str) (n : Nat) : List Str :=
  if n = 0 then []
  else
    let n := if n > (toBytes s).length + 1 then (toBytes s).length + 1 else n
    genSplitLoop sep (n - 1) s

/-- `strings.Join`. -/
def Join (elems : List Str) (sep : Str) : Str :=
  match elems with
  | [] => []
  | [e] => e
  | e :: rest => rest.foldl (fun b s => b ++ sep ++ s) e

/-! ## Package `regexp`, pattern `\W` -/

/-- The class `\w` of Go regular expressions: `[0-9A-Za-z_]`. -/
def isWordRune (r : Nat) : Bool :=
  (0x30 ≤ r && r ≤ 0x39) || (0x41 ≤ r && r ≤ 0x5A) || r == 0x5F || (0x61 ≤ r && r ≤ 0x7A)

/-- The compiled pattern `\W`: it matches exactly one rune, any rune outside `\w`. -/
def matchNonWord (r : Nat) : Bool := !isWordRune r

/-- The loop of `re.ReplaceAll(src, repl)` for `re = \W`: the input is decoded rune by
rune; a matching rune is replaced by `repl`, any other is copied. -/
def ReplaceAllLoop (repl : List Nat) : Nat → List Nat → List Nat
  | 0, _ => []
  | fuel + 1, src =>
    match src with
    | [] => []
    | _ :: _ =>
      let rs := DecodeRune src
      if matchNonWord rs.1 then repl ++ ReplaceAllLoop repl fuel (src.drop rs.2)
      else src.take rs.2 ++ ReplaceAllLoop repl fuel (src.drop rs.2)

/-- `re.ReplaceAll(src, repl)` for `re = regexp.MustCompile("\\W")`. -/
def ReplaceAll (src repl : List Nat) : List Nat := ReplaceAllLoop repl src.length src

/-! ## The branch-name derivation of `genBranchName` -/

/-- The body of the loop of `genBranchName`:
`string(re.ReplaceAll([]byte(part), []byte{'_'}))`. -/
def sanitize (part : Str) : Str := ofBytes (ReplaceAll (toBytes part) ['_'.toNat])

/-- The loop `for i := 0; i < len(parts); i++ { parts[i] = ... }`, from index `i`. -/
def sanitizeFrom : Nat → Nat → List Str → List Str
  | 0, _, parts => parts
  | fuel + 1, i, parts =>
    if h : i < parts.length then
      sanitizeFrom fuel (i + 1) (parts.set i (sanitize (parts.get ⟨i, h⟩)))
    else parts

/-- The tokens kept by `genBranchName`: `strings.SplitN(summary, " ", 6)`, cut down to
its first 5 elements when it has more. -/
def tokens (summary : Str) : List Str :=
  let parts := SplitN summary " ".toList 6
  if parts.length > 5 then parts.take 5 else parts

/-- The value of `suffix` in `genBranchName`. -/
def slug (summary : Str) : Str :=
  let parts := tokens summary
  let parts := sanitizeFrom parts.length 0 parts
  Join parts "-".toList

/-- The line that `genBranchName` prints:
`cfg.ShortName + "-" + issueID + "-" + suffix`. -/
def branchName (shortName issueID summary : Str) : Str :=
  shortName ++ "-".toList ++ issueID ++ "-".toList ++ slug summary

/-! ## The derivation as the specification words it -/

/-- The set `[A-Za-z0-9_]`. -/
def inWordClass (c : Char) : Bool :=
  ('A' ≤ c && c ≤ 'Z') || ('a' ≤ c && c ≤ 'z') || ('0' ≤ c && c ≤ '9') || c == '_'

/-- Substitution of one character: kept when in `[A-Za-z0-9_]`, else `_`. -/
def substChar (c : Char) : Char := if inWordClass c then c else '_'

/-- Substitution over a token, character by character. -/
def substitute (token : Str) : Str := token.map substChar

/-! ## The process: configuration, tracker, command dispatch -/

/-- The record `config` of `main.go`. -/
structure config where
  JiraBaseURL : Str
  Username : Str
  Token : Str
  ShortName : Str
  deriving DecidableEq

/-- The zero value `config{}`. -/
def config.zero : config := ⟨[], [], [], []⟩

/-- A Go `error` value: its text, and whether `os.IsNotExist` holds of it. -/
structure GoError where
  msg : Str
  notExist : Bool
  deriving DecidableEq

/-- The value `jira.BasicAuthTransport` built by `createJiraClient`. -/
structure BasicAuthTransport where
  Username : Str
  Password : Str
  deriving DecidableEq

/-- A tracker client: the transport and base URL it was built from. -/
structure Client where
  transport : BasicAuthTransport
  baseURL : Str
  deriving DecidableEq

/-- The part of `jira.IssueFields` that the program reads. -/
structure IssueFields where
  Summary : Str
  deriving DecidableEq

/-- The part of `jira.Issue` that the program reads. `Fields` is a pointer: it is nil
(`none`) when the response of the tracker carries no fields. -/
structure Issue where
  Fields : Option IssueFields
  deriving DecidableEq

/-- Everything outside the process, as explicit inputs of a run. -/
structure World where
  /-- The argument vector `os.Args`. -/
  Args : List Str
  /-- The home directory given by `user.Current()`, or its error. -/
  userCurrent : Except GoError Str
  /-- The function `filepath.Join` on two elements. -/
  pathJoin : Str → Str → Str
  /-- The error of `os.MkdirAll(dir, 0744)`, if any. -/
  mkdirAll : Str → Option GoError
  /-- The result of `ioutil.ReadFile(path)`. -/
  readFile : Str → Except GoError Str
  /-- The result of `yaml.Unmarshal` on the content of a file. -/
  yamlUnmarshal : Str → Except GoError config
  /-- The result of `yaml.Marshal`. -/
  yamlMarshal : config → Except GoError Str
  /-- The result of the k-th call of `reader.ReadString` on standard input. -/
  readString : Nat → Except GoError Str
  /-- The error of `ioutil.WriteFile(path, data, 0644)`, if any. -/
  writeFile : Str → Str → Option GoError
  /-- The error of `jira.NewClient`, if any. -/
  newClient : BasicAuthTransport → Str → Option GoError
  /-- The result of `client.Issue.Get(issueID, nil)`: the issue, or the error. -/
  issueGet : Client → Str → Except GoError Issue

/-- Observable events of a run, in order. -/
inductive Event where
  | stdout (s : Str)
  | stderr (s : Str)
  | wroteFile (path data : Str)
  /-- The call `jira.NewClient(tp.Client(), baseURL)`. -/
  | calledNewClient (transport : BasicAuthTransport) (baseURL : Str)
  /-- The call `client.Issue.Get(issueID, nil)`. -/
  | calledIssueGet (client : Client) (issueID : Str)
  deriving DecidableEq

/-- How a computation stops: it returns a value, calls `os.Exit`, or panics. -/
inductive Outcome (α : Type) where
  | done (a : α)
  | exit (code : Nat)
  | panicked (err : GoError)
  deriving DecidableEq

/-- A computation of the process: the events it emits and how it stops. -/
structure Proc (α : Type) where
  trace : List Event
  outcome : Outcome α
  deriving DecidableEq

/-- Sequencing: events accumulate; `os.Exit` and a panic skip what follows. -/
def Proc.bind {α β : Type} (x : Proc α) (f : α → Proc β) : Proc β :=
  match x.outcome with
  | .done a => ⟨x.trace ++ (f a).trace, (f a).outcome⟩
  | .exit code => ⟨x.trace, .exit code⟩
  | .panicked err => ⟨x.trace, .panicked err⟩

instance : Monad Proc where
  pure a := ⟨[], .done a⟩
  bind := Proc.bind

/-- One observable event. -/
def emit (e : Event) : Proc Unit := ⟨[e], .done ()⟩

/-- The call `os.Exit(code)`. -/
def Exit {α : Type} (code : Nat) : Proc α := ⟨[], .exit code⟩

/-- The call `panic(err)`. -/
def goPanic {α : Type} (err : GoError) : Proc α := ⟨[], .panicked err⟩

/-- The call `fmt.Println(s)`. -/
def Println (s : Str) : Proc Unit := emit (.stdout (s ++ "\n".toList))

/-- The call `fmt.Print(s)`. -/
def Print (s : Str) : Proc Unit := emit (.stdout s)

/-- Writing `s` to `os.Stderr`. -/
def Eprint (s : Str) : Proc Unit := emit (.stderr s)

/-- The predicate `unicode.IsSpace`. -/
def isSpace (c : Char) : Bool :=
  let n := c.toNat
  (0x09 ≤ n && n ≤ 0x0D) || n == 0x20 || n == 0x85 || n == 0xA0 || n == 0x1680 ||
  (0x2000 ≤ n && n ≤ 0x200A) || n == 0x2028 || n == 0x2029 || n == 0x202F ||
  n == 0x205F || n == 0x3000

/-- `strings.TrimSpace`. -/
def TrimSpace (s : Str) : Str :=
  ((s.dropWhile isSpace).reverse.dropWhile isSpace).reverse

/-- `getOrCreateProjectDir`. -/
def getOrCreateProjectDir (w : World) : Except GoError Str :=
  match w.userCurrent with
  | .error err => .error err
  | .ok homeDir =>
    let dir := w.pathJoin homeDir ".local/share/jiranch".toList
    match w.mkdirAll dir with
    | some err => .error err
    | none => .ok dir

/-- `readConfig`: the configuration and the error, as the pair Go returns; a missing
file ends the process with code 1. -/
def readConfig (w : World) : Proc (config × Option GoError) :=
  match getOrCreateProjectDir w with
  | .error err => pure (config.zero, some err)
  | .ok dir =>
    match w.readFile (w.pathJoin dir "config.yml".toList) with
    | .error err =>
      if err.notExist then do
        Eprint "Please run `jiranch config` first to generate the config file.\n".toList
        Exit 1
      else pure (config.zero, some err)
    | .ok configContent =>
      match w.yamlUnmarshal configContent with
      | .error err => pure (config.zero, some err)
      | .ok cfg => pure (cfg, none)

/-- One prompt of `recordConfig`: `reader.ReadString` with `panic(err)` on error. -/
def readField (w : World) (k : Nat) : Proc Str :=
  match w.readString k with
  | .error err => goPanic err
  | .ok line => pure (TrimSpace line)

/-- `recordConfig`. -/
def recordConfig (w : World) : Proc Unit := do
  Print "JIRA base URL: ".toList
  let jiraBaseURL ← readField w 0
  Print "JIRA user name: ".toList
  let username ← readField w 1
  Print "JIRA API token: ".toList
  let token ← readField w 2
  Print "Short name: ".toList
  let shortName ← readField w 3
  let cfg : config := ⟨jiraBaseURL, username, token, shortName⟩
  match w.yamlMarshal cfg with
  | .error err => goPanic err
  | .ok data =>
    match getOrCreateProjectDir w with
    | .error err => goPanic err
    | .ok dir =>
      let path := w.pathJoin dir "config.yml".toList
      match w.writeFile path data with
      | some err => goPanic err
      | none => emit (.wroteFile path data)

/-- The run-time panic of Go on reading a field through a nil pointer. -/
def nilDereference : GoError :=
  ⟨"runtime error: invalid memory address or nil pointer dereference".toList, false⟩

/-- `createJiraClient`. -/
def createJiraClient (w : World) (cfg : config) : Proc (Except GoError Client) := do
  let tp : BasicAuthTransport := ⟨cfg.Username, cfg.Token⟩
  emit (.calledNewClient tp cfg.JiraBaseURL)
  match w.newClient tp cfg.JiraBaseURL with
  | some err => pure (.error err)
  | none => pure (.ok ⟨tp, cfg.JiraBaseURL⟩)

/-- `genBranchName`. The read `issue.Fields.Summary` goes through the pointer `Fields`
unguarded, so an issue without fields ends the run in a panic. -/
def genBranchName (w : World) (cfg : config) (issueID : Str) : Proc Unit := do
  match ← createJiraClient w cfg with
  | .error err =>
    Eprint ("Failed to create a jira client: ".toList ++ err.msg)
    Exit 1
  | .ok client =>
    emit (.calledIssueGet client issueID)
    match w.issueGet client issueID with
    | .error err =>
      Eprint ("Failed to get issue: ".toList ++ err.msg)
      Exit 1
    | .ok issue =>
      match issue.Fields with
      | none => goPanic nilDereference
      | some fields => Println (branchName cfg.ShortName issueID fields.Summary)

/-- The constant `usage` of `main`. -/
def usage : Str := "Usage: jiranch [config|gen issueID]".toList

/-- `main`. -/
def main (w : World) : Proc Unit :=
  if w.Args.length < 2 then do
    Println usage
    Exit 1
  else
    let arg1 := w.Args.getD 1 []
    if arg1 = "config".toList then recordConfig w
    else if arg1 = "gen".toList then do
      if w.Args.length ≠ 3 then
        Println "Please provide an issue ID, for example `jiranch gen XXX-512`".toList
        Exit 1
      let (cfg, err) ← readConfig w
      if let some e := err then
        Eprint ("Failed to read config: ".toList ++ e.msg ++ "\n".toList)
      let issueID := w.Args.getD 2 []
      genBranchName w cfg issueID
    else do
      Println usage
      Exit 1

/-- How the process ends. -/
inductive Termination where
  | exited (code : Nat)
  | panicked (err : GoError)
  deriving DecidableEq

/-- The end of a run of the program: returning from `main` is exit code 0. -/
def run (w : World) : Termination :=
  match (main w).outcome with
  | .done _ => .exited 0
  | .exit code => .exited code
  | .panicked err => .panicked err

/-- The exit status the operating system sees (a Go panic exits with status 2). -/
def Termination.status : Termination → Nat
  | .exited code => code
  | .panicked _ => 2

/-- The text the run wrote to standard output. -/
def stdoutOf : List Event → Str
  | [] => []
  | .stdout s :: es => s ++ stdoutOf es
  | _ :: es => stdoutOf es

/-! ## The exit conditions as the specification lists them -/

/-- The subcommand `os.Args[1]` (empty when absent). -/
def subcommand (w : World) : Str := w.Args.getD 1 []

/-- Missing or invalid arguments: no subcommand, an unknown subcommand, or `gen`
without exactly one issue ID. -/
def argsInvalid (w : World) : Bool :=
  decide (w.Args.length < 2) ||
  (subcommand w != "config".toList && subcommand w != "gen".toList) ||
  (subcommand w == "gen".toList && w.Args.length != 3)

/-- A well-formed `gen` run. -/
def isGenRun (w : World) : Bool := w.Args.length == 3 && subcommand w == "gen".toList

/-- A `config` run. -/
def isConfigRun (w : World) : Bool :=
  decide (2 ≤ w.Args.length) && subcommand w == "config".toList

/-- The config file is missing: the read reports that it does not exist. -/
def configFileMissing (w : World) : Bool :=
  match getOrCreateProjectDir w with
  | .error _ => false
  | .ok dir =>
    match w.readFile (w.pathJoin dir "config.yml".toList) with
    | .error err => err.notExist
    | .ok _ => false

/-- The configuration a `gen` run goes on with: the one in the file, or the zero value
when the file could not be read or decoded. -/
def loadedConfig (w : World) : config :=
  match getOrCreateProjectDir w with
  | .error _ => config.zero
  | .ok dir =>
    match w.readFile (w.pathJoin dir "config.yml".toList) with
    | .error _ => config.zero
    | .ok content =>
      match w.yamlUnmarshal content with
      | .error _ => config.zero
      | .ok cfg => cfg

/-- The client a `gen` run builds. -/
def clientOf (cfg : config) : Client := ⟨⟨cfg.Username, cfg.Token⟩, cfg.JiraBaseURL⟩

/-- Tracker-client construction fails. -/
def clientFails (w : World) : Bool :=
  (w.newClient (clientOf (loadedConfig w)).transport (clientOf (loadedConfig w)).baseURL).isSome

/-- The issue fetch fails. -/
def fetchFails (w : World) : Bool :=
  match w.issueGet (clientOf (loadedConfig w)) (w.Args.getD 2 []) with
  | .error _ => true
  | .ok _ => false

/-- The conditions listed for exit code 1. -/
def exitOneCondition (w : World) : Bool :=
  argsInvalid w || (isGenRun w && (configFileMissing w || clientFails w || fetchFails w))

/-- The issue fetch succeeds but the issue it returns carries no fields. -/
def fieldsMissing (w : World) : Bool :=
  match w.issueGet (clientOf (loadedConfig w)) (w.Args.getD 2 []) with
  | .error _ => false
  | .ok issue => issue.Fields.isNone

/-- The interactive capture of a `config` run fails: one of the four lines cannot be
read from standard input, or the record cannot be serialised, or the project directory
cannot be prepared, or the file cannot be written. -/
def captureFails (w : World) : Bool :=
  match w.readString 0 with
  | .error _ => true
  | .ok url =>
    match w.readString 1 with
    | .error _ => true
    | .ok name =>
      match w.readString 2 with
      | .error _ => true
      | .ok token =>
        match w.readString 3 with
        | .error _ => true
        | .ok short =>
          match w.yamlMarshal
            ⟨TrimSpace url, TrimSpace name, TrimSpace token, TrimSpace short⟩ with
          | .error _ => true
          | .ok data =>
            match getOrCreateProjectDir w with
            | .error _ => true
            | .ok dir => (w.writeFile (w.pathJoin dir "config.yml".toList) data).isSome

/-- The conditions under which a run ends in a panic: a `config` run whose capture
fails, or a `gen` run that gets as far as a successful fetch of an issue without
fields. -/
def panicCondition (w : World) : Bool :=
  (isConfigRun w && captureFails w) ||
  (isGenRun w && !configFileMissing w && !clientFails w && fieldsMissing w)

/-! ## Concrete inputs -/

/-- A world in which every collaborator succeeds and the tracker knows one summary. -/
def worldWith (args : List Str) (cfg : config) (summary : Str) : World where
  Args := args
  userCurrent := .ok "/home/dev".toList
  pathJoin := fun a b => a ++ "/".toList ++ b
  mkdirAll := fun _ => none
  readFile := fun _ => .ok "shortName: ABC".toList
  yamlUnmarshal := fun _ => .ok cfg
  yamlMarshal := fun _ => .ok "shortName: ABC".toList
  readString := fun _ => .ok "ABC\n".toList
  writeFile := fun _ _ => none
  newClient := fun _ _ => none
  issueGet := fun _ _ => .ok ⟨some ⟨summary⟩⟩

/-- A configuration with short name `ABC`. -/
def cfgABC : config := ⟨"https://jira.example.com".toList, "dev".toList, "t0k3n".toList, "ABC".toList⟩

/-- The run `jiranch gen ABC-42` on an issue titled `Fix the login page crash!!`. -/
def worldLogin : World :=
  worldWith ["jiranch".toList, "gen".toList, "ABC-42".toList] cfgABC
    "Fix the login page crash!!".toList

/-- The run `jiranch gen ABC-42` with a config file that exists but does not decode; a
request without a base URL fails, as it does against a real tracker. -/
def worldMalformed : World :=
  { worldLogin with
    yamlUnmarshal := fun _ => .error ⟨"yaml: unmarshal errors".toList, false⟩
    issueGet := fun client _ =>
      if client.baseURL = [] then .error ⟨"unsupported protocol scheme".toList, false⟩
      else .ok ⟨some ⟨"Fix the login page crash!!".toList⟩⟩ }

/-- The run `jiranch gen ABC-42` against a tracker that answers without error but with
an issue that carries no fields. -/
def worldNoFields : World :=
  { worldLogin with issueGet := fun _ _ => .ok ⟨none⟩ }

/-- The run `jiranch config` with standard input closed. -/
def worldStdinClosed : World :=
  { worldWith ["jiranch".toList, "config".toList] cfgABC [] with
    readString := fun _ => .error ⟨"EOF".toList, false⟩ }

end Jiranch

/-! ## UTF-8: decoding inverts encoding -/

namespace Jiranch

theorem char_valid (c : Char) : c.toNat < 0xD800 ∨ (0xDFFF < c.toNat ∧ c.toNat < 0x110000) := by
  have h := c.valid
  simpa [UInt32.isValidChar, Nat.isValidChar, Char.toNat] using h

theorem first_two (p : Nat) (h1 : 0xC2 ≤ p) (h2 : p < 0xE0) : first p = some (2, 0x80, 0xBF) := by
  unfold first
  rw [if_neg (by omega), if_pos (by omega)]

theorem DecodeRune_encodeRune (c : Char) (rest : List Nat) :
    DecodeRune (encodeRune c ++ rest) = (c.toNat, (encodeRune c).length) := by
  have hv := char_valid c
  simp only [encodeRune]
  generalize c.toNat = n at hv
  by_cases h1 : n < 0x80
  · simp [h1, DecodeRune]
  · by_cases h2 : n < 0x800
    · simp only [h1, h2, if_false, if_true, DecodeRune, List.cons_append, List.nil_append,
        first_two (0xC0 + n / 64) (by omega) (by omega)]
      rw [if_neg (by omega), if_neg (by simp), if_neg (by omega), if_pos (by omega)]
      simp
      omega
    · by_cases h3 : n < 0x10000
      · simp only [h1, h2, h3, if_false, if_true, DecodeRune, List.cons_append, List.nil_append]
        rw [if_neg (by omega)]
        by_cases e0 : 0xE0 + n / 4096 = 0xE0
        · have hf : first (0xE0 + n / 4096) = some (3, 0xA0, 0xBF) := by
            rw [e0]; rfl
          simp only [hf]
          rw [if_neg (by simp), if_neg (by omega), if_neg (by omega), if_neg (by omega), if_pos (by omega)]
          simp
          omega
        · by_cases ed : 0xE0 + n / 4096 = 0xED
          · have hf : first (0xE0 + n / 4096) = some (3, 0x80, 0x9F) := by
              rw [ed]; rfl
            simp only [hf]
            rw [if_neg (by simp), if_neg (by omega), if_neg (by omega), if_neg (by omega), if_pos (by omega)]
            simp
            omega
          · have hf : first (0xE0 + n / 4096) = some (3, 0x80, 0xBF) := by
              unfold first
              rw [if_neg (by omega), if_neg (by omega), if_neg (by omega), if_neg (by omega), if_pos (by omega)]
            simp only [hf]
            rw [if_neg (by simp), if_neg (by omega), if_neg (by omega), if_neg (by omega), if_pos (by omega)]
            simp
            omega
      · simp only [h1, h2, h3, if_false, if_true, DecodeRune, List.cons_append, List.nil_append]
        rw [if_neg (by omega)]
        by_cases e0 : 0xF0 + n / 262144 = 0xF0
        · have hf : first (0xF0 + n / 262144) = some (4, 0x90, 0xBF) := by
            rw [e0]; rfl
          simp only [hf]
          rw [if_neg (by simp), if_neg (by omega), if_neg (by omega), if_neg (by omega), if_neg (by omega), if_neg (by omega)]
          simp
          omega
        · by_cases e4 : 0xF0 + n / 262144 = 0xF4
          · have hf : first (0xF0 + n / 262144) = some (4, 0x80, 0x8F) := by
              rw [e4]; rfl
            simp only [hf]
            rw [if_neg (by simp), if_neg (by omega), if_neg (by omega), if_neg (by omega), if_neg (by omega), if_neg (by omega)]
            simp
            omega
          · have hf : first (0xF0 + n / 262144) = some (4, 0x80, 0xBF) := by
              unfold first
              rw [if_neg (by omega), if_neg (by omega), if_neg (by omega), if_neg (by omega), if_neg (by omega), if_neg (by omega), if_pos (by omega)]
            simp only [hf]
            rw [if_neg (by simp), if_neg (by omega), if_neg (by omega), if_neg (by omega), if_neg (by omega), if_neg (by omega)]
            simp
            omega

theorem encodeRune_length_pos (c : Char) : 0 < (encodeRune c).length := by
  unfold encodeRune
  simp only
  split_ifs <;> simp

theorem toBytes_length_ge (s : Str) : s.length ≤ (toBytes s).length := by
  induction s with
  | nil => simp [toBytes]
  | cons c s ih =>
    have := encodeRune_length_pos c
    simp only [toBytes, List.length_append, List.length_cons]
    omega

/-- Reading back the bytes of a text gives the text. -/
theorem ofBytesLoop_toBytes (s : Str) :
    ∀ fuel, (toBytes s).length ≤ fuel → ofBytesLoop fuel (toBytes s) = s := by
  induction s with
  | nil => intro fuel _; cases fuel <;> simp [toBytes, ofBytesLoop]
  | cons c s ih =>
    intro fuel hf
    have hpos := encodeRune_length_pos c
    simp only [toBytes, List.length_append] at hf
    obtain ⟨f, rfl⟩ : ∃ f, fuel = f + 1 := ⟨fuel - 1, by omega⟩
    obtain ⟨b, bs, hb⟩ : ∃ b bs, encodeRune c ++ toBytes s = b :: bs := by
      cases h : encodeRune c ++ toBytes s with
      | nil => rw [List.append_eq_nil] at h; simp [h.1] at hpos
      | cons b bs => exact ⟨b, bs, rfl⟩
    have hd := DecodeRune_encodeRune c (toBytes s)
    simp only [toBytes, ofBytesLoop]
    rw [hb] at hd ⊢
    simp only [hd]
    rw [← hb, List.drop_left, ih f (by omega), Char.ofNat_toNat]

theorem ofBytes_toBytes (s : Str) : ofBytes (toBytes s) = s :=
  ofBytesLoop_toBytes s _ (le_refl _)

end Jiranch

/-! ## The substitution step -/

namespace Jiranch

theorem char_le_iff (a b : Char) : a ≤ b ↔ a.toNat ≤ b.toNat := by
  rw [Char.le_def]
  exact Iff.rfl

theorem char_eq_iff (a b : Char) : a = b ↔ a.toNat = b.toNat := by
  constructor
  · intro h; rw [h]
  · intro h
    rw [← Char.ofNat_toNat a, ← Char.ofNat_toNat b, h]

/-- The class `\w` of the regular expression is the set `[A-Za-z0-9_]`. -/
theorem isWordRune_toNat (c : Char) : isWordRune c.toNat = inWordClass c := by
  have e1 : ('A' : Char).toNat = 0x41 := by decide
  have e2 : ('Z' : Char).toNat = 0x5A := by decide
  have e3 : ('a' : Char).toNat = 0x61 := by decide
  have e4 : ('z' : Char).toNat = 0x7A := by decide
  have e5 : ('0' : Char).toNat = 0x30 := by decide
  have e6 : ('9' : Char).toNat = 0x39 := by decide
  have e7 : ('_' : Char).toNat = 0x5F := by decide
  rw [Bool.eq_iff_iff]
  simp only [isWordRune, inWordClass, Bool.or_eq_true, Bool.and_eq_true, decide_eq_true_eq,
    beq_iff_eq, char_le_iff, char_eq_iff c, e1, e2, e3, e4, e5, e6, e7]
  omega

theorem inWordClass_lt (c : Char) (h : inWordClass c = true) : c.toNat < 0x80 := by
  rw [← isWordRune_toNat] at h
  simp only [isWordRune, Bool.or_eq_true, Bool.and_eq_true, decide_eq_true_eq, beq_iff_eq] at h
  omega

/-- On the bytes of a text, replacing the matches of `\W` by `_` yields the bytes of
the text substituted character by character. -/
theorem ReplaceAllLoop_toBytes (s : Str) :
    ∀ fuel, (toBytes s).length ≤ fuel →
      ReplaceAllLoop ['_'.toNat] fuel (toBytes s) = toBytes (substitute s) := by
  induction s with
  | nil => intro fuel _; cases fuel <;> simp [toBytes, ReplaceAllLoop, substitute]
  | cons c s ih =>
    intro fuel hf
    have hpos := encodeRune_length_pos c
    simp only [toBytes, List.length_append] at hf
    obtain ⟨f, rfl⟩ : ∃ f, fuel = f + 1 := ⟨fuel - 1, by omega⟩
    obtain ⟨b, bs, hb⟩ : ∃ b bs, encodeRune c ++ toBytes s = b :: bs := by
      cases h : encodeRune c ++ toBytes s with
      | nil => rw [List.append_eq_nil] at h; simp [h.1] at hpos
      | cons b bs => exact ⟨b, bs, rfl⟩
    have hd := DecodeRune_encodeRune c (toBytes s)
    simp only [toBytes, ReplaceAllLoop, substitute, List.map_cons]
    rw [hb] at hd ⊢
    simp only [hd]
    rw [← hb, List.drop_left, List.take_left, ih f (by omega)]
    simp only [matchNonWord, isWordRune_toNat, substChar]
    cases hc : inWordClass c
    · have hu : encodeRune '_' = ['_'.toNat] := by decide
      simp [hu, substitute]
    · simp [substitute]

/-- The loop body of `genBranchName` substitutes character by character. -/
theorem sanitize_eq_substitute (s : Str) : sanitize s = substitute s := by
  unfold sanitize ReplaceAll
  rw [ReplaceAllLoop_toBytes s _ (le_refl _), ofBytes_toBytes]

theorem sanitizeFrom_eq (fuel : Nat) :
    ∀ (i : Nat) (parts : List Str), parts.length ≤ fuel + i →
      sanitizeFrom fuel i parts = parts.take i ++ (parts.drop i).map sanitize := by
  induction fuel with
  | zero =>
    intro i parts h
    simp only [sanitizeFrom]
    rw [List.drop_of_length_le (by omega), List.take_of_length_le (by omega)]
    simp
  | succ fuel ih =>
    intro i parts h
    simp only [sanitizeFrom]
    split
    · rename_i hi
      rw [ih (i + 1) _ (by simp only [List.length_set]; omega)]
      rw [List.drop_set_of_lt _ _ (Nat.lt_succ_self i)]
      rw [List.set_eq_take_append_cons_drop, if_pos hi]
      have ht : (List.take i parts).length = i := by
        rw [List.length_take]; omega
      have e1 : List.take (i + 1) (List.take i parts ++ sanitize (parts.get ⟨i, hi⟩) ::
          List.drop (i + 1) parts) = List.take i parts ++ [sanitize (parts.get ⟨i, hi⟩)] := by
        rw [List.take_append_eq_append_take, ht]
        simp
      rw [e1, List.drop_eq_getElem_cons hi]
      simp only [List.map_cons, List.get_eq_getElem, List.append_assoc, List.singleton_append]
    · rename_i hi
      rw [List.drop_of_length_le (by omega), List.take_of_length_le (by omega)]
      simp

/-- The in-place loop of `genBranchName` maps the loop body over the slice. -/
theorem sanitizeFrom_eq_map (parts : List Str) :
    sanitizeFrom parts.length 0 parts = parts.map substitute := by
  rw [sanitizeFrom_eq parts.length 0 parts (by omega)]
  simp only [List.take_zero, List.drop_zero, List.nil_append]
  exact List.map_congr_left (fun s _ => sanitize_eq_substitute s)

theorem foldl_join (sep : Str) (rest : List Str) :
    ∀ acc : Str, rest.foldl (fun b s => b ++ sep ++ s) acc
      = acc ++ (rest.map (fun s => sep ++ s)).flatten := by
  induction rest with
  | nil => intro acc; simp
  | cons r rest ih =>
    intro acc
    rw [List.foldl_cons, ih]
    simp [List.append_assoc]

theorem intercalate_cons_cons (sep e e2 : Str) (rest : List Str) :
    sep.intercalate (e :: e2 :: rest) = e ++ sep ++ sep.intercalate (e2 :: rest) := by
  simp [List.intercalate, List.intersperse, List.append_assoc]

theorem intercalate_eq_flatten (sep e : Str) (rest : List Str) :
    sep.intercalate (e :: rest) = e ++ (rest.map (fun s => sep ++ s)).flatten := by
  induction rest generalizing e with
  | nil => simp [List.intercalate]
  | cons r rest ih => rw [intercalate_cons_cons, ih r]; simp [List.append_assoc]

/-- `strings.Join` interleaves the separator between the elements. -/
theorem Join_eq_intercalate (elems : List Str) (sep : Str) :
    Join elems sep = sep.intercalate elems := by
  match elems with
  | [] => simp [Join, List.intercalate]
  | [e] => simp [Join, List.intercalate]
  | e :: e2 :: rest =>
    simp only [Join]
    rw [foldl_join, intercalate_eq_flatten]

end Jiranch

/-! ## The split step -/

namespace Jiranch

theorem Index_single_nil (c : Char) : Index [] [c] = none := by
  simp [Index]

theorem Index_single_cons (c x : Char) (t : Str) :
    Index (x :: t) [c] = if x = c then some 0 else (Index t [c]).map (· + 1) := by
  by_cases h : x = c
  · subst h; simp [Index, List.isPrefixOf]
  · have h2 : ¬ c = x := fun e => h e.symm
    simp [Index, List.isPrefixOf, h, h2]

theorem genSplitLoop_single_nil (c : Char) (n : Nat) : genSplitLoop [c] n [] = [[]] := by
  cases n <;> simp [genSplitLoop, Index_single_nil]

theorem genSplitLoop_single_cons (c x : Char) (t : Str) (n : Nat) :
    genSplitLoop [c] (n + 1) (x :: t) =
      if x = c then [] :: genSplitLoop [c] n t
      else (genSplitLoop [c] (n + 1) t).modifyHead (List.cons x) := by
  by_cases h : x = c
  · simp [genSplitLoop, Index_single_cons, h]
  · simp only [genSplitLoop, Index_single_cons, h, if_false]
    cases hi : Index t [c] with
    | none => simp
    | some m => simp

/-- Cutting more often than the text is long changes nothing. -/
theorem genSplitLoop_succ_of_length_le (c : Char) (s : Str) :
    ∀ k, s.length ≤ k → genSplitLoop [c] (k + 1) s = genSplitLoop [c] k s := by
  induction s with
  | nil => intro k _; simp [genSplitLoop_single_nil]
  | cons x t ih =>
    intro k hk
    simp only [List.length_cons] at hk
    obtain ⟨m, rfl⟩ : ∃ m, k = m + 1 := ⟨k - 1, by omega⟩
    rw [genSplitLoop_single_cons, genSplitLoop_single_cons c x t m, ih (m + 1) (by omega),
      ih m (by omega)]

theorem genSplitLoop_add_of_length_le (c : Char) (s : Str) (k : Nat) (hk : s.length ≤ k) :
    ∀ j, genSplitLoop [c] (k + j) s = genSplitLoop [c] k s := by
  intro j
  induction j with
  | zero => rfl
  | succ j ih => rw [← Nat.add_assoc, genSplitLoop_succ_of_length_le c s (k + j) (by omega), ih]

/-- The cap of `genSplit` on `n` is an allocation bound only. -/
theorem SplitN_single (s : Str) (c : Char) (n : Nat) :
    SplitN s [c] (n + 1) = genSplitLoop [c] n s := by
  simp only [SplitN, Nat.succ_ne_zero, if_false]
  split
  · rename_i h
    have hl := toBytes_length_ge s
    have e : n = (toBytes s).length + (n - (toBytes s).length) := by omega
    simp only [Nat.add_sub_cancel]
    conv => rhs; rw [e]
    rw [genSplitLoop_add_of_length_le c s _ hl]
  · simp

theorem take_succ_modifyHead {α : Type} (f : α → α) (l : List α) (n : Nat) :
    (l.modifyHead f).take (n + 1) = (l.take (n + 1)).modifyHead f := by
  cases l <;> simp

theorem length_modifyHead_eq {α : Type} (f : α → α) (l : List α) :
    (l.modifyHead f).length = l.length := by
  cases l <;> simp

theorem splitOn_nil_eq (c : Char) : ([] : Str).splitOn c = [[]] := by
  simp [List.splitOn]

theorem splitOn_cons_eq (c x : Char) (t : Str) :
    (x :: t).splitOn c =
      if x = c then [] :: t.splitOn c else (t.splitOn c).modifyHead (List.cons x) := by
  simp only [List.splitOn, List.splitOnP_cons, beq_iff_eq]

theorem splitOn_length_pos (c : Char) (s : Str) : 0 < (s.splitOn c).length := by
  have h : s.splitOn c ≠ [] := List.splitOnP_ne_nil _ s
  exact List.length_pos.mpr h

/-- The first `n` pieces of the `genSplit` loop are the first `n` pieces of an
unbounded split, and the loop yields one piece more when the text has more. -/
theorem genSplitLoop_spec (c : Char) (s : Str) :
    ∀ n, (genSplitLoop [c] n s).take n = (s.splitOn c).take n ∧
      (genSplitLoop [c] n s).length = min (n + 1) (s.splitOn c).length := by
  induction s with
  | nil => intro n; simp [genSplitLoop_single_nil, splitOn_nil_eq]
  | cons x t ih =>
    intro n
    have hpos := splitOn_length_pos c (x :: t)
    cases n with
    | zero => simp only [genSplitLoop, List.take_zero, List.length_singleton, true_and]; omega
    | succ m =>
      rw [genSplitLoop_single_cons, splitOn_cons_eq]
      by_cases h : x = c
      · simp only [h, if_true, List.take_succ_cons, List.length_cons, (ih m).1, (ih m).2, true_and]
        omega
      · simp only [h, if_false, take_succ_modifyHead, length_modifyHead_eq, (ih (m + 1)).1,
          (ih (m + 1)).2, true_and]

/-- The tokens kept by `genBranchName` are the first 5 pieces of the summary cut at
every space. -/
theorem tokens_eq (summary : Str) : tokens summary = (summary.splitOn ' ').take 5 := by
  have hs : SplitN summary " ".toList 6 = genSplitLoop [' '] 5 summary :=
    SplitN_single summary ' ' 5
  have h := genSplitLoop_spec ' ' summary 5
  simp only [tokens, hs]
  split
  · exact h.1
  · rename_i hlen
    have h2 := h.2
    have e1 : (genSplitLoop [' '] 5 summary).length ≤ 5 := by omega
    have e2 : (summary.splitOn ' ').length ≤ 5 := by omega
    rw [← List.take_of_length_le e1]
    exact h.1

/-- The split step yields more than 5 pieces exactly when the summary has more than 5
space-separated pieces. -/
theorem SplitN_length (summary : Str) :
    (SplitN summary " ".toList 6).length = min 6 (summary.splitOn ' ').length := by
  have hs : SplitN summary " ".toList 6 = genSplitLoop [' '] 5 summary :=
    SplitN_single summary ' ' 5
  rw [hs]
  exact (genSplitLoop_spec ' ' summary 5).2

theorem not_mem_of_mem_modifyHead_cons (c x : Char) (hx : ¬ x = c) (L : List Str)
    (hL : ∀ l ∈ L, c ∉ l) : ∀ l ∈ L.modifyHead (List.cons x), c ∉ l := by
  cases L with
  | nil => simp
  | cons a L =>
    intro l hl
    simp only [List.modifyHead_cons, List.mem_cons] at hl
    rcases hl with rfl | hl
    · have ha := hL a (List.mem_cons_self _ _)
      simp only [List.mem_cons, not_or]
      exact ⟨fun e => hx e.symm, ha⟩
    · exact hL l (List.mem_cons_of_mem _ hl)

/-- No piece of a split contains the separator. -/
theorem not_mem_of_mem_splitOn (c : Char) (s : Str) : ∀ l ∈ s.splitOn c, c ∉ l := by
  induction s with
  | nil => simp [splitOn_nil_eq]
  | cons x t ih =>
    rw [splitOn_cons_eq]
    by_cases h : x = c
    · simp only [h, if_true]
      intro l hl
      simp only [List.mem_cons] at hl
      rcases hl with rfl | hl
      · simp
      · exact ih l hl
    · simp only [h, if_false]
      exact not_mem_of_mem_modifyHead_cons c x h _ ih

theorem tokens_ne_nil (summary : Str) : tokens summary ≠ [] := by
  rw [tokens_eq]
  have h := splitOn_length_pos ' ' summary
  intro e
  have := congrArg List.length e
  simp only [List.length_take, List.length_nil] at this
  omega

theorem tokens_length_le (summary : Str) : (tokens summary).length ≤ 5 := by
  rw [tokens_eq, List.length_take]
  omega

theorem space_not_mem_tokens (summary : Str) : ∀ t ∈ tokens summary, ' ' ∉ t := by
  intro t ht
  rw [tokens_eq] at ht
  exact not_mem_of_mem_splitOn ' ' summary t (List.mem_of_mem_take ht)

/-- The slug is the hyphen-join of the substituted tokens. -/
theorem slug_eq (summary : Str) :
    slug summary = "-".toList.intercalate ((tokens summary).map substitute) := by
  simp only [slug]
  rw [sanitizeFrom_eq_map, Join_eq_intercalate]

theorem inWordClass_substChar (c : Char) : inWordClass (substChar c) = true := by
  unfold substChar
  split
  · assumption
  · decide

theorem hyphen_not_mem_substitute (t : Str) : '-' ∉ substitute t := by
  intro h
  simp only [substitute, List.mem_map] at h
  obtain ⟨c, _, hc⟩ := h
  have := inWordClass_substChar c
  rw [hc] at this
  exact absurd this (by decide)

end Jiranch

/-! ## The branch name -/

namespace Jiranch

theorem tokens_eq_take (summary : Str) :
    tokens summary = (SplitN summary " ".toList 6).take 5 := by
  simp [tokens]

theorem tokens_of_short (summary : Str) (h : (SplitN summary " ".toList 6).length ≤ 5) :
    tokens summary = SplitN summary " ".toList 6 := by
  have h2 : ¬ 5 < (SplitN summary " ".toList 6).length := by omega
  simp only [tokens, gt_iff_lt, h2, if_false]

theorem splitOn_slug (summary : Str) :
    (slug summary).splitOn '-' = (tokens summary).map sanitize := by
  rw [slug_eq]
  have e : (tokens summary).map sanitize = (tokens summary).map substitute :=
    List.map_congr_left (fun s _ => sanitize_eq_substitute s)
  rw [e]
  apply List.splitOn_intercalate
  · intro l hl
    simp only [List.mem_map] at hl
    obtain ⟨t, _, rfl⟩ := hl
    exact hyphen_not_mem_substitute t
  · intro e2
    exact tokens_ne_nil summary (List.map_eq_nil_iff.mp e2)

theorem slug_congr (s1 s2 : Str) (h : tokens s1 = tokens s2) : slug s1 = slug s2 := by
  rw [slug_eq, slug_eq, h]

/-- Re-joining the kept tokens with spaces gives a summary with the same tokens. -/
theorem tokens_Join_tokens (summary : Str) :
    tokens (Join (tokens summary) " ".toList) = tokens summary := by
  rw [Join_eq_intercalate, tokens_eq (List.intercalate _ _)]
  have e : List.splitOn ' ' (" ".toList.intercalate (tokens summary)) = tokens summary :=
    List.splitOn_intercalate (tokens summary) ' ' (space_not_mem_tokens summary)
      (tokens_ne_nil summary)
  rw [e]
  exact List.take_of_length_le (tokens_length_le summary)

theorem count_hyphen_intercalate (L : List Str) (hL : ∀ l ∈ L, '-' ∉ l) (hne : L ≠ []) :
    ("-".toList.intercalate L).count '-' + 1 = L.length := by
  induction L with
  | nil => exact absurd rfl hne
  | cons e rest ih =>
    have he : e.count '-' = 0 := List.count_eq_zero.mpr (hL e (List.mem_cons_self _ _))
    cases rest with
    | nil => simp [List.intercalate, he]
    | cons e2 rest =>
      rw [intercalate_cons_cons]
      have ih2 := ih (fun l hl => hL l (List.mem_cons_of_mem _ hl)) (by simp)
      have hs : "-".toList = ['-'] := rfl
      simp only [List.count_append, he, hs, List.length_cons] at ih2 ⊢
      simp only [List.count_cons_self, List.count_nil]
      omega

theorem substChar_idem (c : Char) : substChar (substChar c) = substChar c := by
  have h := inWordClass_substChar c
  generalize substChar c = d at h
  simp [substChar, h]

theorem not_isSpace_of_inWordClass (c : Char) (h : inWordClass c = true) : isSpace c = false := by
  rw [← isWordRune_toNat] at h
  simp only [isWordRune, Bool.or_eq_true, Bool.and_eq_true, decide_eq_true_eq, beq_iff_eq] at h
  simp only [isSpace, Bool.or_eq_false_iff, Bool.and_eq_false_iff, decide_eq_false_iff_not,
    beq_eq_false_iff_ne]
  omega

theorem mem_intercalate_hyphen (L : List Str) (c : Char)
    (h : c ∈ "-".toList.intercalate L) : (∃ l ∈ L, c ∈ l) ∨ c = '-' := by
  cases L with
  | nil => simp [List.intercalate] at h
  | cons e rest =>
    rw [intercalate_eq_flatten] at h
    simp only [List.mem_append, List.mem_flatten, List.mem_map] at h
    rcases h with h | ⟨l, ⟨t, ht, rfl⟩, hc⟩
    · exact Or.inl ⟨e, List.mem_cons_self _ _, h⟩
    · have hs : "-".toList = ['-'] := rfl
      rw [hs] at hc
      simp only [List.singleton_append, List.mem_cons] at hc
      rcases hc with rfl | hc
      · exact Or.inr rfl
      · exact Or.inl ⟨t, List.mem_cons_of_mem _ ht, hc⟩

theorem mem_slug (summary : Str) (c : Char) (h : c ∈ slug summary) :
    inWordClass c = true ∨ c = '-' := by
  rw [slug_eq] at h
  rcases mem_intercalate_hyphen _ c h with ⟨l, hl, hc⟩ | h2
  · simp only [List.mem_map] at hl
    obtain ⟨t, _, rfl⟩ := hl
    simp only [substitute, List.mem_map] at hc
    obtain ⟨d, _, rfl⟩ := hc
    exact Or.inl (inWordClass_substChar d)
  · exact Or.inr h2

end Jiranch

/-! ## The claims about the derivation -/

namespace Jiranch

theorem genBranchName_ok (w : World) (cfg : config) (issueID summary : Str)
    (hc : w.newClient ⟨cfg.Username, cfg.Token⟩ cfg.JiraBaseURL = none)
    (hi : w.issueGet ⟨⟨cfg.Username, cfg.Token⟩, cfg.JiraBaseURL⟩ issueID
      = .ok ⟨some ⟨summary⟩⟩) :
    genBranchName w cfg issueID =
      ⟨[.calledNewClient ⟨cfg.Username, cfg.Token⟩ cfg.JiraBaseURL,
        .calledIssueGet ⟨⟨cfg.Username, cfg.Token⟩, cfg.JiraBaseURL⟩ issueID,
        .stdout (branchName cfg.ShortName issueID summary ++ "\n".toList)], .done ()⟩ := by
  simp [genBranchName, createJiraClient, bind, Proc.bind, emit, pure, hc, hi, Println]

/-- C1: after a successful issue fetch, `genBranchName` prints exactly one line,
`shortName ++ "-" ++ issueID ++ "-" ++ slug`, where `slug` is the hyphen-join of the
substituted first (at most 5) pieces of the summary cut at its spaces; `shortName` and
`issueID` are copied as they are, whatever they contain. -/
theorem genBranchName_prints (w : World) (cfg : config) (issueID summary : Str)
    (hc : w.newClient ⟨cfg.Username, cfg.Token⟩ cfg.JiraBaseURL = none)
    (hi : w.issueGet ⟨⟨cfg.Username, cfg.Token⟩, cfg.JiraBaseURL⟩ issueID
      = .ok ⟨some ⟨summary⟩⟩) :
    stdoutOf (genBranchName w cfg issueID).trace =
      cfg.ShortName ++ "-".toList ++ issueID ++ "-".toList ++
        "-".toList.intercalate (((summary.splitOn ' ').take 5).map substitute) ++ "\n".toList ∧
    (genBranchName w cfg issueID).outcome = .done () := by
  rw [genBranchName_ok w cfg issueID summary hc hi]
  simp only [stdoutOf, branchName, slug_eq, tokens_eq, List.append_nil, and_self]

/-- C1, concrete case: short name `ABC`, issue `ABC-42`, summary
`Fix the login page crash!!` print `ABC-ABC-42-Fix-the-login-page-crash__`. -/
theorem genBranchName_prints_witness :
    worldLogin.newClient ⟨cfgABC.Username, cfgABC.Token⟩ cfgABC.JiraBaseURL = none ∧
    worldLogin.issueGet ⟨⟨cfgABC.Username, cfgABC.Token⟩, cfgABC.JiraBaseURL⟩ "ABC-42".toList
      = .ok ⟨some ⟨"Fix the login page crash!!".toList⟩⟩ ∧
    stdoutOf (genBranchName worldLogin cfgABC "ABC-42".toList).trace
      = "ABC-ABC-42-Fix-the-login-page-crash__\n".toList :=
  ⟨rfl, rfl,
    (genBranchName_prints worldLogin cfgABC "ABC-42".toList
      "Fix the login page crash!!".toList rfl rfl).1.trans (by decide)⟩

/-- C2 as stated fails: a tab does not separate tokens. The summary `a<TAB>b` is one
token and its slug is `a_b`, not `a-b`. -/
theorem tab_does_not_split :
    tokens "a\tb".toList = ["a\tb".toList] ∧ slug "a\tb".toList = "a_b".toList ∧
    ¬ (tokens "a\tb".toList = ["a".toList, "b".toList] ∧ slug "a\tb".toList = "a-b".toList) := by
  decide

/-- C2, amended: the summary is cut at the space character only. A space between two
words separates them into two tokens; any other whitespace character (a tab, a newline)
stays inside its token and is substituted by `_`. -/
theorem split_on_space_only (u v : Str) (hu : ' ' ∉ u) (hv : ' ' ∉ v) :
    (tokens (u ++ ' ' :: v) = [u, v] ∧
      slug (u ++ ' ' :: v) = sanitize u ++ '-' :: sanitize v) ∧
    ∀ ws : Char, isSpace ws = true → ws ≠ ' ' →
      tokens (u ++ ws :: v) = [u ++ ws :: v] ∧
      slug (u ++ ws :: v) = sanitize u ++ '_' :: sanitize v := by
  have key : ∀ L : List Str, (∀ l ∈ L, ' ' ∉ l) → L ≠ [] → L.length ≤ 5 →
      tokens (" ".toList.intercalate L) = L := by
    intro L h1 h2 h3
    have e : List.splitOn ' ' (" ".toList.intercalate L) = L :=
      List.splitOn_intercalate L ' ' h1 h2
    rw [tokens_eq, e, List.take_of_length_le h3]
  constructor
  · have e : u ++ ' ' :: v = " ".toList.intercalate [u, v] := by
      simp [List.intercalate]
    have ht : tokens (u ++ ' ' :: v) = [u, v] := by
      rw [e]
      apply key
      · intro l hl
        simp only [List.mem_cons, List.mem_singleton, List.not_mem_nil, or_false] at hl
        rcases hl with rfl | rfl <;> assumption
      · simp
      · simp
    refine ⟨ht, ?_⟩
    rw [slug_eq, ht, sanitize_eq_substitute, sanitize_eq_substitute]
    simp [List.intercalate]
  · intro ws hws hne
    have e : u ++ ws :: v = " ".toList.intercalate [u ++ ws :: v] := by
      simp [List.intercalate]
    have ht : tokens (u ++ ws :: v) = [u ++ ws :: v] := by
      conv => lhs; rw [e]
      apply key
      · intro l hl
        simp only [List.mem_singleton] at hl
        subst hl
        simp only [List.mem_append, List.mem_cons, not_or]
        exact ⟨hu, fun h => hne h.symm, hv⟩
      · simp
      · simp
    refine ⟨ht, ?_⟩
    have hsub : substChar ws = '_' := by
      unfold substChar
      cases hw : inWordClass ws
      · simp
      · have := not_isSpace_of_inWordClass ws hw
        rw [hws] at this
        exact absurd this (by decide)
    rw [slug_eq, ht, sanitize_eq_substitute, sanitize_eq_substitute]
    simp [List.intercalate, substitute, hsub]

/-- C2, amended, concrete case: `a b` gives the tokens `a`, `b` and the slug `a-b`;
with a tab or a newline instead of the space, one token and the slug `a_b`. -/
theorem split_on_space_only_witness :
    ' ' ∉ "a".toList ∧ ' ' ∉ "b".toList ∧
    slug "a b".toList = "a-b".toList ∧
    slug "a\tb".toList = "a_b".toList ∧ slug "a\nb".toList = "a_b".toList :=
  have h := split_on_space_only "a".toList "b".toList (by decide) (by decide)
  ⟨by decide, by decide, h.1.2.trans (by decide),
    ((h.2 '\t' (by decide) (by decide)).2).trans (by decide),
    ((h.2 '\n' (by decide) (by decide)).2).trans (by decide)⟩

/-- C3: when the split step yields more than 5 pieces, the slug has exactly 5
hyphen-separated segments, the sanitized pieces 1 to 5 in order (which are the first 5
pieces of the summary cut at every space); what follows the fifth piece contributes
nothing: the slug is that of the first 5 pieces alone, joined by spaces. -/
theorem slug_more_than_five (summary : Str)
    (h : 5 < (SplitN summary " ".toList 6).length) :
    (slug summary).splitOn '-' = ((SplitN summary " ".toList 6).take 5).map sanitize ∧
    ((slug summary).splitOn '-').length = 5 ∧
    (SplitN summary " ".toList 6).take 5 = (summary.splitOn ' ').take 5 ∧
    5 < (summary.splitOn ' ').length ∧
    slug summary = slug (Join ((SplitN summary " ".toList 6).take 5) " ".toList) := by
  have ht := tokens_eq_take summary
  have hl := SplitN_length summary
  refine ⟨?_, ?_, ?_, ?_, ?_⟩
  · rw [splitOn_slug, ht]
  · rw [splitOn_slug, ht, List.length_map, List.length_take]
    omega
  · rw [← ht, tokens_eq]
  · omega
  · rw [← ht]
    exact slug_congr _ _ (tokens_Join_tokens summary).symm

/-- C3, concrete case: of the 7 words of `a b c d e f g` only the first 5 appear. -/
theorem slug_more_than_five_witness :
    5 < (SplitN "a b c d e f g".toList " ".toList 6).length ∧
    (slug "a b c d e f g".toList).splitOn '-' =
      ["a".toList, "b".toList, "c".toList, "d".toList, "e".toList] ∧
    slug "a b c d e f g".toList = slug "a b c d e".toList :=
  have h := slug_more_than_five "a b c d e f g".toList (by decide)
  ⟨by decide, h.1.trans (by decide), h.2.2.2.2.trans (by decide)⟩

/-- C4: when the split step yields `k ≤ 5` pieces (these are all the pieces of the
summary cut at every space, empty ones included), cutting the slug at `-` gives back
exactly `k` segments, the i-th being the sanitized i-th piece. -/
theorem slug_at_most_five (summary : Str)
    (h : (SplitN summary " ".toList 6).length ≤ 5) :
    (slug summary).splitOn '-' = (SplitN summary " ".toList 6).map sanitize ∧
    ((slug summary).splitOn '-').length = (SplitN summary " ".toList 6).length ∧
    SplitN summary " ".toList 6 = summary.splitOn ' ' ∧
    ∀ i : Nat, ((slug summary).splitOn '-')[i]? =
      (SplitN summary " ".toList 6)[i]?.map sanitize := by
  have ht := tokens_of_short summary h
  have hl := SplitN_length summary
  have h1 : (slug summary).splitOn '-' = (SplitN summary " ".toList 6).map sanitize := by
    rw [splitOn_slug, ht]
  refine ⟨h1, ?_, ?_, ?_⟩
  · rw [h1, List.length_map]
  · rw [← ht, tokens_eq]
    exact List.take_of_length_le (by omega)
  · intro i
    rw [h1, List.getElem?_map]

/-- C4, concrete case: the doubled space of `a  b` yields an empty token, kept as an
empty segment. -/
theorem slug_at_most_five_witness :
    (SplitN "a  b".toList " ".toList 6).length ≤ 5 ∧
    (slug "a  b".toList).splitOn '-' = ["a".toList, [], "b".toList] ∧
    slug "a  b".toList = "a--b".toList :=
  have h := slug_at_most_five "a  b".toList (by decide)
  ⟨by decide, h.1.trans (by decide), by decide⟩

/-- C5: the substitution step of `genBranchName` (UTF-8 bytes of the token through the
regular expression and back) keeps the number of characters, and position `i` of the
result holds the character of the token when it is in `[A-Za-z0-9_]` and `_` otherwise;
a non-ASCII character, of 2 to 4 bytes, becomes one `_`. -/
theorem sanitize_pointwise (token : Str) :
    (sanitize token).length = token.length ∧
    (∀ i : Nat, (sanitize token)[i]? =
      token[i]?.map (fun c => if inWordClass c = true then c else '_')) ∧
    (∀ (i : Nat) (c : Char), token[i]? = some c → 0x80 ≤ c.toNat →
      1 < (encodeRune c).length ∧ (sanitize token)[i]? = some '_') := by
  rw [sanitize_eq_substitute]
  refine ⟨by simp [substitute], ?_, ?_⟩
  · intro i
    simp only [substitute, List.getElem?_map]
    rfl
  · intro i c hc hn
    have hw : inWordClass c = false := by
      cases hw : inWordClass c
      · rfl
      · have := inWordClass_lt c hw
        omega
    refine ⟨?_, ?_⟩
    · have h80 : ¬ c.toNat < 0x80 := by omega
      simp only [encodeRune, h80, if_false]
      split_ifs <;> simp
    · simp [substitute, List.getElem?_map, hc, substChar, hw]

/-- C6: the substitution step is idempotent. -/
theorem sanitize_idempotent (s : Str) : sanitize (sanitize s) = sanitize s := by
  rw [sanitize_eq_substitute, sanitize_eq_substitute]
  simp only [substitute, List.map_map]
  apply List.map_congr_left
  intro c _
  exact substChar_idem c

/-- C7: an empty summary gives an empty slug and the branch name
`shortName ++ "-" ++ issueID ++ "-"`; with `ABC` and `ABC-42` this is `ABC-ABC-42-`. -/
theorem branchName_empty_summary (shortName issueID : Str) :
    slug [] = [] ∧
    branchName shortName issueID [] = shortName ++ "-".toList ++ issueID ++ "-".toList ∧
    branchName "ABC".toList "ABC-42".toList "".toList = "ABC-ABC-42-".toList := by
  have h : slug [] = [] := by decide
  refine ⟨h, ?_, by decide⟩
  simp [branchName, h]

/-- C10: every character of the slug is in `[A-Za-z0-9_]` or is `-`, none is a
whitespace character; a sanitized token holds no `-`, so the hyphens of the slug are
the separators, one less than the tokens, at most 4. -/
theorem slug_charset (summary : Str) :
    (∀ c ∈ slug summary, inWordClass c = true ∨ c = '-') ∧
    (∀ c ∈ slug summary, isSpace c = false) ∧
    (∀ t ∈ tokens summary, '-' ∉ sanitize t) ∧
    (slug summary).count '-' + 1 = (tokens summary).length ∧
    (slug summary).count '-' ≤ 4 := by
  have hc : (slug summary).count '-' + 1 = (tokens summary).length := by
    rw [slug_eq]
    have := count_hyphen_intercalate ((tokens summary).map substitute)
      (by
        intro l hl
        simp only [List.mem_map] at hl
        obtain ⟨t, _, rfl⟩ := hl
        exact hyphen_not_mem_substitute t)
      (by
        intro e
        exact tokens_ne_nil summary (List.map_eq_nil_iff.mp e))
    rw [this, List.length_map]
  have hl := tokens_length_le summary
  refine ⟨mem_slug summary, ?_, ?_, hc, by omega⟩
  · intro c hcm
    rcases mem_slug summary c hcm with h | h
    · exact not_isSpace_of_inWordClass c h
    · subst h
      decide
  · intro t _
    rw [sanitize_eq_substitute]
    exact hyphen_not_mem_substitute t

end Jiranch

/-! ## The command dispatch -/

namespace Jiranch

theorem genBranchName_outcome (w : World) (cfg : config) (issueID : Str) :
    (genBranchName w cfg issueID).outcome =
      if (w.newClient (clientOf cfg).transport (clientOf cfg).baseURL).isSome then .exit 1
      else
        match w.issueGet (clientOf cfg) issueID with
        | .error _ => .exit 1
        | .ok issue => if issue.Fields.isNone then .panicked nilDereference else .done () := by
  simp only [genBranchName, createJiraClient, clientOf, bind, Proc.bind, emit, pure, Println,
    Eprint, Exit, goPanic]
  cases hc : w.newClient ⟨cfg.Username, cfg.Token⟩ cfg.JiraBaseURL with
  | some err => simp
  | none =>
    cases hi : w.issueGet ⟨⟨cfg.Username, cfg.Token⟩, cfg.JiraBaseURL⟩ issueID with
    | error err => simp [hi]
    | ok issue =>
      cases hf : issue.Fields with
      | none => simp [hi, hf]
      | some fields => simp [hi, hf]

theorem readConfig_cases (w : World) :
    ((readConfig w).outcome = .exit 1 ∧ configFileMissing w = true) ∨
    (∃ e, readConfig w = ⟨[], .done (loadedConfig w, e)⟩ ∧ configFileMissing w = false) := by
  unfold readConfig configFileMissing loadedConfig
  cases getOrCreateProjectDir w with
  | error err => exact Or.inr ⟨some err, rfl, rfl⟩
  | ok dir =>
    cases hf : w.readFile (w.pathJoin dir "config.yml".toList) with
    | error err =>
      simp only [hf]
      cases hn : err.notExist
      · exact Or.inr ⟨some err, rfl, rfl⟩
      · exact Or.inl ⟨rfl, rfl⟩
    | ok content =>
      simp only [hf]
      cases hy : w.yamlUnmarshal content with
      | error err => exact Or.inr ⟨some err, rfl, trivial⟩
      | ok cfg => exact Or.inr ⟨none, rfl, trivial⟩

theorem recordConfig_outcome (w : World) :
    (captureFails w = false ∧ (recordConfig w).outcome = .done ()) ∨
    (captureFails w = true ∧ ∃ err, (recordConfig w).outcome = .panicked err) := by
  unfold recordConfig captureFails
  simp only [bind, Proc.bind, Print, emit, readField, pure, goPanic]
  cases w.readString 0 with
  | error e => right; exact ⟨rfl, e, rfl⟩
  | ok l0 =>
    cases w.readString 1 with
    | error e => right; exact ⟨rfl, e, rfl⟩
    | ok l1 =>
      cases w.readString 2 with
      | error e => right; exact ⟨rfl, e, rfl⟩
      | ok l2 =>
        cases w.readString 3 with
        | error e => right; exact ⟨rfl, e, rfl⟩
        | ok l3 =>
          simp only
          cases w.yamlMarshal ⟨TrimSpace l0, TrimSpace l1, TrimSpace l2, TrimSpace l3⟩ with
          | error e => right; exact ⟨rfl, e, rfl⟩
          | ok data =>
            simp only
            cases getOrCreateProjectDir w with
            | error e => right; exact ⟨rfl, e, rfl⟩
            | ok dir =>
              simp only
              cases w.writeFile (w.pathJoin dir "config.yml".toList) data with
              | some e => right; exact ⟨rfl, e, rfl⟩
              | none => left; exact ⟨rfl, rfl⟩

theorem main_of_config (w : World) (h : isConfigRun w = true) : main w = recordConfig w := by
  simp only [isConfigRun, subcommand, Bool.and_eq_true, decide_eq_true_eq, beq_iff_eq] at h
  have h1 : ¬ w.Args.length < 2 := by omega
  simp only [main, h1, if_false, h.2, if_true]

theorem main_of_gen (w : World) (h : isGenRun w = true) :
    main w = Proc.bind (readConfig w) (fun r =>
      Proc.bind
        (match r.2 with
          | some e => Eprint ("Failed to read config: ".toList ++ e.msg ++ "\n".toList)
          | none => pure ())
        (fun _ => genBranchName w r.1 (w.Args.getD 2 []))) := by
  simp only [isGenRun, subcommand, Bool.and_eq_true, beq_iff_eq] at h
  have h1 : ¬ w.Args.length < 2 := by omega
  have h2 : ¬ ("gen".toList = "config".toList) := by decide
  have h3 : ¬ w.Args.length ≠ 3 := by omega
  unfold main
  rw [if_neg h1]
  simp only [h.2, h2, if_false, if_true]
  rw [if_neg h3]
  simp only [bind, pure, Proc.bind]
  cases hr : (readConfig w).outcome with
  | exit code => rfl
  | panicked e => rfl
  | done r =>
    obtain ⟨cfg, err⟩ := r
    cases err <;> rfl

theorem run_of_gen (w : World) (h : isGenRun w = true) :
    run w = if configFileMissing w || clientFails w || fetchFails w then .exited 1
      else if fieldsMissing w then .panicked nilDereference
      else .exited 0 := by
  unfold run
  rw [main_of_gen w h]
  rcases readConfig_cases w with ⟨ho, hm⟩ | ⟨e, hr, hm⟩
  · simp [Proc.bind, ho, hm]
  · have hg := genBranchName_outcome w (loadedConfig w) (w.Args.getD 2 [])
    have hout : ∀ x : Proc Unit, x.outcome = .done () →
        (Proc.bind x (fun _ => genBranchName w (loadedConfig w) (w.Args.getD 2 []))).outcome
          = (genBranchName w (loadedConfig w) (w.Args.getD 2 [])).outcome := by
      intro x hx
      simp [Proc.bind, hx]
    have hmid : (Proc.bind (readConfig w) (fun r =>
      Proc.bind
        (match r.2 with
          | some e => Eprint ("Failed to read config: ".toList ++ e.msg ++ "\n".toList)
          | none => pure ())
        (fun _ => genBranchName w r.1 (w.Args.getD 2 [])))).outcome
        = (genBranchName w (loadedConfig w) (w.Args.getD 2 [])).outcome := by
      rw [hr]
      cases e with
      | none => exact hout _ rfl
      | some err => exact hout _ rfl
    rw [hmid, hg, hm]
    clear hg hmid hout
    simp only [clientFails, fetchFails, fieldsMissing, Bool.false_or]
    cases hc : w.newClient (clientOf (loadedConfig w)).transport (clientOf (loadedConfig w)).baseURL with
    | some err => simp
    | none =>
      obtain ⟨x, hx⟩ : ∃ x, w.issueGet (clientOf (loadedConfig w)) (w.Args.getD 2 []) = x :=
        ⟨_, rfl⟩
      simp only [hx]
      cases x with
      | error err => simp
      | ok issue => cases hf : issue.Fields <;> simp [hf]

theorem run_of_argsInvalid (w : World) (h : argsInvalid w = true) : run w = .exited 1 := by
  simp only [argsInvalid, subcommand, Bool.or_eq_true, Bool.and_eq_true, decide_eq_true_eq,
    bne_iff_ne, beq_iff_eq, ne_eq] at h
  unfold run main
  by_cases h1 : w.Args.length < 2
  · rw [if_pos h1]
    rfl
  · rw [if_neg h1]
    rcases h with (h | h) | h
    · exact absurd h h1
    · simp only [h.1, h.2, if_false]
      rfl
    · have h2 : ¬ ("gen".toList = "config".toList) := by decide
      simp only [h.1, h2, if_false, if_true]
      have h3 : w.Args.length ≠ 3 := h.2
      simp only [bind, Proc.bind, if_pos h3]
      rfl

theorem run_cases (w : World) :
    argsInvalid w = true ∨ isGenRun w = true ∨ isConfigRun w = true := by
  simp only [argsInvalid, isGenRun, isConfigRun, subcommand, Bool.or_eq_true, Bool.and_eq_true,
    decide_eq_true_eq, bne_iff_ne, beq_iff_eq, ne_eq]
  by_cases h1 : w.Args.length < 2
  · left; left; left; exact h1
  · by_cases hc : w.Args.getD 1 [] = "config".toList
    · right; right; exact ⟨by omega, hc⟩
    · by_cases hg : w.Args.getD 1 [] = "gen".toList
      · by_cases h3 : w.Args.length = 3
        · right; left; exact ⟨h3, hg⟩
        · left; right; exact ⟨hg, h3⟩
      · left; left; right; exact ⟨hc, hg⟩

theorem exitOneCondition_of_config (w : World) (h : isConfigRun w = true) :
    exitOneCondition w = false := by
  simp only [isConfigRun, Bool.and_eq_true, decide_eq_true_eq, beq_iff_eq] at h
  have e1 : ("config".toList != "config".toList) = false := by decide
  have e2 : ("config".toList == "gen".toList) = false := by decide
  have e3 : decide (w.Args.length < 2) = false := by
    simp only [decide_eq_false_iff_not]; omega
  simp only [exitOneCondition, argsInvalid, isGenRun, h.2, e1, e2, e3, Bool.false_and,
    Bool.and_false, Bool.or_false]

theorem isConfigRun_of_gen (w : World) (h : isGenRun w = true) : isConfigRun w = false := by
  simp only [isGenRun, Bool.and_eq_true, beq_iff_eq] at h
  have e2 : ("gen".toList == "config".toList) = false := by decide
  simp only [isConfigRun, h.2, e2, Bool.and_false]

theorem argsInvalid_of_gen (w : World) (h : isGenRun w = true) : argsInvalid w = false := by
  simp only [isGenRun, Bool.and_eq_true, beq_iff_eq] at h
  have e1 : ("gen".toList != "gen".toList) = false := by decide
  have e2 : (w.Args.length != 3) = false := by simp [h.1]
  have e3 : decide (w.Args.length < 2) = false := by
    simp only [decide_eq_false_iff_not]; omega
  simp only [argsInvalid, h.2, e1, e2, e3, Bool.false_and, Bool.and_false, Bool.or_false]

end Jiranch

/-! ## The claims about the command dispatch -/

namespace Jiranch

/-- C8 (the code departs from it): when `readConfig` returns an error, a `gen` run
writes `Failed to read config: ...` to standard error and then goes on: it calls
`genBranchName` with the configuration `readConfig` returned, so it constructs a
tracker client and ends as `genBranchName` ends. -/
theorem main_goes_on_after_config_error (w : World) (prog issueID : Str) (cfg : config)
    (err : GoError) (hargs : w.Args = [prog, "gen".toList, issueID])
    (hr : readConfig w = ⟨[], .done (cfg, some err)⟩) :
    main w =
      ⟨.stderr ("Failed to read config: ".toList ++ err.msg ++ "\n".toList) ::
        (genBranchName w cfg issueID).trace, (genBranchName w cfg issueID).outcome⟩ ∧
    Event.calledNewClient ⟨cfg.Username, cfg.Token⟩ cfg.JiraBaseURL ∈ (main w).trace := by
  have hg : isGenRun w = true := by
    simp only [isGenRun, subcommand, hargs]
    rfl
  have hm : main w =
      ⟨.stderr ("Failed to read config: ".toList ++ err.msg ++ "\n".toList) ::
        (genBranchName w cfg issueID).trace, (genBranchName w cfg issueID).outcome⟩ := by
    rw [main_of_gen w hg, hr]
    have h2 : w.Args.getD 2 [] = issueID := by rw [hargs]; rfl
    rw [h2]
    rfl
  refine ⟨hm, ?_⟩
  rw [hm]
  apply List.mem_cons_of_mem
  simp only [genBranchName, createJiraClient, bind, Proc.bind, emit, pure]
  cases w.newClient ⟨cfg.Username, cfg.Token⟩ cfg.JiraBaseURL <;> simp

/-- C8, concrete case: `jiranch gen ABC-42` with a config file that does not decode
reports the error, then builds a client from the zero configuration and requests the
issue; the run stops only because that request fails. -/
theorem main_goes_on_after_config_error_witness :
    worldMalformed.Args = ["jiranch".toList, "gen".toList, "ABC-42".toList] ∧
    readConfig worldMalformed =
      ⟨[], .done (config.zero, some ⟨"yaml: unmarshal errors".toList, false⟩)⟩ ∧
    main worldMalformed =
      ⟨[.stderr "Failed to read config: yaml: unmarshal errors\n".toList,
        .calledNewClient ⟨[], []⟩ [],
        .calledIssueGet ⟨⟨[], []⟩, []⟩ "ABC-42".toList,
        .stderr "Failed to get issue: unsupported protocol scheme".toList], .exit 1⟩ :=
  ⟨rfl, rfl,
    (main_goes_on_after_config_error worldMalformed "jiranch".toList "ABC-42".toList
      config.zero ⟨"yaml: unmarshal errors".toList, false⟩ rfl rfl).1.trans (by decide)⟩

/-- C9 as stated fails: `jiranch config` with standard input closed, and
`jiranch gen ABC-42` against a tracker that returns an issue without fields, meet none
of the conditions listed for exit code 1, yet neither exits with code 0: both panic
(exit status 2). -/
theorem run_may_panic :
    (exitOneCondition worldStdinClosed = false ∧
      run worldStdinClosed = .panicked ⟨"EOF".toList, false⟩ ∧
      run worldStdinClosed ≠ .exited 0 ∧
      (run worldStdinClosed).status = 2) ∧
    (exitOneCondition worldNoFields = false ∧
      run worldNoFields = .panicked nilDereference ∧
      run worldNoFields ≠ .exited 0 ∧
      (run worldNoFields).status = 2) := by
  decide

/-- C9, amended: a run exits with code 1 exactly when the arguments are missing or
invalid, or, in a `gen` run, the config file is missing, the client construction fails
or the issue fetch fails. A run ends in a panic (exit status 2) exactly when, in a
`config` run, reading a line of standard input, serialising the record, preparing the
project directory or writing the file fails, or when a `gen` run fetches without error
an issue that carries no fields. In every other case the run exits with code 0. -/
theorem exit_codes (w : World) :
    (run w = .exited 1 ↔ exitOneCondition w = true) ∧
    ((∃ err, run w = .panicked err) ↔ panicCondition w = true) ∧
    (run w = .exited 0 ↔ (exitOneCondition w = false ∧ panicCondition w = false)) ∧
    ((run w).status = 1 ↔ exitOneCondition w = true) ∧
    ((run w).status = 2 ↔ panicCondition w = true) ∧
    ((run w).status = 0 ↔ (exitOneCondition w = false ∧ panicCondition w = false)) := by
  have key : (exitOneCondition w = true ∧ panicCondition w = false ∧ run w = .exited 1) ∨
      (exitOneCondition w = false ∧ panicCondition w = true ∧ ∃ err, run w = .panicked err) ∨
      (exitOneCondition w = false ∧ panicCondition w = false ∧ run w = .exited 0) := by
    rcases run_cases w with ha | hg | hc
    · have hr := run_of_argsInvalid w ha
      have he : exitOneCondition w = true := by simp [exitOneCondition, ha]
      have hcf : isConfigRun w = false := by
        cases h : isConfigRun w
        · rfl
        · have := exitOneCondition_of_config w h
          rw [he] at this
          exact absurd this (by decide)
      have hgf : isGenRun w = false := by
        cases h : isGenRun w
        · rfl
        · have := argsInvalid_of_gen w h
          rw [ha] at this
          exact absurd this (by decide)
      exact Or.inl ⟨he, by simp [panicCondition, hcf, hgf], hr⟩
    · have hr := run_of_gen w hg
      have ha := argsInvalid_of_gen w hg
      have hc := isConfigRun_of_gen w hg
      have he : exitOneCondition w = (configFileMissing w || clientFails w || fetchFails w) := by
        simp [exitOneCondition, ha, hg]
      have hp : panicCondition w =
          (!configFileMissing w && !clientFails w && fieldsMissing w) := by
        simp [panicCondition, hc, hg]
      have hff : fetchFails w = true → fieldsMissing w = false := by
        unfold fetchFails fieldsMissing
        intro h
        split at h
        · rfl
        · exact absurd h (by decide)
      rw [he, hp]
      cases h1 : configFileMissing w
      · cases h2 : clientFails w
        · cases h3 : fetchFails w
          · cases h4 : fieldsMissing w
            · exact Or.inr (Or.inr ⟨rfl, rfl, by simp [hr, h1, h2, h3, h4]⟩)
            · exact Or.inr (Or.inl ⟨rfl, rfl, nilDereference, by simp [hr, h1, h2, h3, h4]⟩)
          · have h4 := hff h3
            exact Or.inl ⟨rfl, by simp [h4], by simp [hr, h1, h2, h3]⟩
        · exact Or.inl ⟨rfl, rfl, by simp [hr, h1, h2]⟩
      · exact Or.inl ⟨rfl, rfl, by simp [hr, h1]⟩
    · have he := exitOneCondition_of_config w hc
      have hm := main_of_config w hc
      have hgf : isGenRun w = false := by
        cases h : isGenRun w
        · rfl
        · have := isConfigRun_of_gen w h
          rw [hc] at this
          exact absurd this (by decide)
      have hp : panicCondition w = captureFails w := by
        simp [panicCondition, hc, hgf]
      have hrun : run w = match (recordConfig w).outcome with
          | .done _ => .exited 0
          | .exit code => .exited code
          | .panicked err => .panicked err := by
        unfold run
        rw [hm]
      rcases recordConfig_outcome w with ⟨hcf, hd⟩ | ⟨hcf, err, hpn⟩
      · rw [hd] at hrun
        exact Or.inr (Or.inr ⟨he, by rw [hp, hcf], hrun⟩)
      · rw [hpn] at hrun
        exact Or.inr (Or.inl ⟨he, by rw [hp, hcf], err, hrun⟩)
  rcases key with ⟨he, hp, hr⟩ | ⟨he, hp, err, hr⟩ | ⟨he, hp, hr⟩
  · simp [he, hp, hr, Termination.status]
  · simp [he, hp, hr, Termination.status]
  · simp [he, hp, hr, Termination.status]

end Jiranch
